import Mathlib

/-!
Verification development for the recreation subsystem of the InVEST
repository: the buffered disk-backed array map, the out-of-core quadtree
index, the photo-user-days (PUD) point-in-polygon aggregator, the parallel
aggregation scheduler, and the remote aggregation service.

The recreation implementation modules themselves
(`natcap/invest/recreation/buffered_numpy_disk_map.py`,
`out_of_core_quadtree.py`, `recmodel_server.py`, `recmodel_client.py`) are
not present in the source tree; only their test suite
(`tests/test_recreation.py`) is.  Every definition below is therefore
modelled from the specification text (and the behaviour the tests pin
down), as noted in each doc comment.
-/

namespace Spec2Proof

/-! ## Buffered Disk-Backed Array Map (spec section 4.1)

Modelled from the spec: `buffered_numpy_disk_map.BufferedNumpyDiskMap` is
absent from the source tree.  The spec says: `append(key, values)` appends
a numeric sequence to the logical array for `key`, buffering in memory and
flushing the current buffer for that key to its backing file when the
buffer exceeds a configured size (0 disables buffering, flushing
immediately); `read(key)` returns the full logical content (flushed +
buffered), failing with a not-found error if the key was never appended or
was deleted; `delete(key)` removes buffer and backing file.  Keys are
integers, values are numeric arrays; we model the per-key backing file as
`disk` and the in-memory buffer as `buffer`, each `none` when absent, and
measure the buffer threshold in element count.  -/

structure BufferedNumpyDiskMap where
  bufferSize : Nat
  disk : Nat → Option (List Int)
  buffer : Nat → Option (List Int)

namespace BufferedNumpyDiskMap

/-- Modelled from the spec: a freshly constructed map with a configured
buffer-size threshold has no backing files and no buffered data. -/
def init (bufferSize : Nat) : BufferedNumpyDiskMap :=
  ⟨bufferSize, fun _ => none, fun _ => none⟩

/-- Modelled from the spec: flushing one key moves its buffered content to
the end of its backing file (creating the file when absent). -/
def flushKey (st : BufferedNumpyDiskMap) (key : Nat) : BufferedNumpyDiskMap :=
  match st.buffer key with
  | none => st
  | some l =>
      { st with
        disk := fun k => if k = key then some ((st.disk key).getD [] ++ l) else st.disk k
        buffer := fun k => if k = key then some [] else st.buffer k }

/-- Modelled from the spec: flushing the whole map flushes every buffered
key. -/
def flushAll (st : BufferedNumpyDiskMap) : BufferedNumpyDiskMap :=
  { st with
    disk := fun k =>
      match st.buffer k with
      | none => st.disk k
      | some l => some ((st.disk k).getD [] ++ l)
    buffer := fun k =>
      match st.buffer k with
      | none => none
      | some _ => some [] }

/-- Modelled from the spec: `append(key, values)` concatenates `values`
onto the in-memory buffer for `key`; when the buffer then exceeds the
configured threshold (0 disables buffering) the key is flushed to disk. -/
def append (st : BufferedNumpyDiskMap) (key : Nat) (vals : List Int) :
    BufferedNumpyDiskMap :=
  let newBuf := (st.buffer key).getD [] ++ vals
  let buffered : BufferedNumpyDiskMap :=
    { st with buffer := fun k => if k = key then some newBuf else st.buffer k }
  if st.bufferSize < newBuf.length then buffered.flushKey key else buffered

/-- Modelled from the spec: `read(key)` returns the flushed disk content
followed by any still-buffered unflushed appends, in append order; it
fails (`none`, the model of the `IOError`) if the key was never appended
or was deleted. -/
def read (st : BufferedNumpyDiskMap) (key : Nat) : Option (List Int) :=
  match st.disk key, st.buffer key with
  | none, none => none
  | d, b => some (d.getD [] ++ b.getD [])

/-- Modelled from the spec: `delete(key)` removes both the buffer and the
backing file for `key`. -/
def delete (st : BufferedNumpyDiskMap) (key : Nat) : BufferedNumpyDiskMap :=
  { st with
    disk := fun k => if k = key then none else st.disk k
    buffer := fun k => if k = key then none else st.buffer k }

end BufferedNumpyDiskMap

/-- An operation interleaving appends with explicit whole-map buffer
flushes, the interleavings quantified over in the round-trip property. -/
inductive MapOp where
  | append (key : Nat) (vals : List Int)
  | flush
deriving DecidableEq

/-- Run one operation on the map. -/
def applyMapOp (st : BufferedNumpyDiskMap) : MapOp → BufferedNumpyDiskMap
  | .append key vals => st.append key vals
  | .flush => st.flushAll

/-- Run a sequence of operations left to right. -/
def runMapOps (st : BufferedNumpyDiskMap) : List MapOp → BufferedNumpyDiskMap
  | [] => st
  | op :: rest => runMapOps (applyMapOp st op) rest

/-- Concatenation, in order, of every array appended to `key` by an
operation sequence. -/
def appendedTo (key : Nat) : List MapOp → List Int
  | [] => []
  | .append k vals :: rest =>
      (if k = key then vals else []) ++ appendedTo key rest
  | .flush :: rest => appendedTo key rest

/-- Whether the operation sequence appends to `key` at least once. -/
def touchesKey (key : Nat) : List MapOp → Bool
  | [] => false
  | .append k _ :: rest => k = key || touchesKey key rest
  | .flush :: rest => touchesKey key rest

/-- The logical content the map currently holds for `key`: flushed disk
content then buffered content. -/
def logicalContent (st : BufferedNumpyDiskMap) (key : Nat) : List Int :=
  (st.disk key).getD [] ++ (st.buffer key).getD []

/-- Whether the map knows `key` at all (a backing file or a buffer entry
exists). -/
def knowsKey (st : BufferedNumpyDiskMap) (key : Nat) : Bool :=
  (st.disk key).isSome || (st.buffer key).isSome

theorem read_eq_of_knows (st : BufferedNumpyDiskMap) (key : Nat)
    (h : knowsKey st key = true) :
    st.read key = some (logicalContent st key) := by
  unfold knowsKey at h
  unfold BufferedNumpyDiskMap.read logicalContent
  cases hd : st.disk key <;> cases hb : st.buffer key <;>
    simp [hd, hb] at h ⊢

theorem flushKey_logical (st : BufferedNumpyDiskMap) (key k : Nat) :
    logicalContent (st.flushKey key) k = logicalContent st k := by
  unfold BufferedNumpyDiskMap.flushKey logicalContent
  cases hb : st.buffer key with
  | none => rfl
  | some l =>
      by_cases hk : k = key
      · subst hk; simp [hb]
      · simp [hk]

theorem flushKey_knows (st : BufferedNumpyDiskMap) (key k : Nat) :
    knowsKey (st.flushKey key) k = knowsKey st k := by
  unfold BufferedNumpyDiskMap.flushKey knowsKey
  cases hb : st.buffer key with
  | none => rfl
  | some l =>
      by_cases hk : k = key
      · subst hk; simp [hb]
      · simp [hk]

theorem flushAll_logical (st : BufferedNumpyDiskMap) (k : Nat) :
    logicalContent st.flushAll k = logicalContent st k := by
  unfold BufferedNumpyDiskMap.flushAll logicalContent
  cases hb : st.buffer k <;> simp [hb]

theorem flushAll_knows (st : BufferedNumpyDiskMap) (k : Nat) :
    knowsKey st.flushAll k = knowsKey st k := by
  unfold BufferedNumpyDiskMap.flushAll knowsKey
  cases hb : st.buffer k <;> simp [hb]

theorem append_logical (st : BufferedNumpyDiskMap) (key k : Nat)
    (vals : List Int) :
    logicalContent (st.append key vals) k =
      logicalContent st k ++ (if key = k then vals else []) := by
  unfold BufferedNumpyDiskMap.append
  by_cases hthr :
      st.bufferSize < ((st.buffer key).getD [] ++ vals).length
  · simp only [hthr, if_true]
    rw [flushKey_logical]
    unfold logicalContent
    by_cases hk : k = key
    · subst hk
      cases hb : st.buffer k <;> simp [hb, List.append_assoc]
    · have hk2 : ¬ key = k := fun h => hk h.symm
      simp [hk, hk2]
  · simp only [hthr, if_false]
    unfold logicalContent
    by_cases hk : k = key
    · subst hk
      cases hb : st.buffer k <;> simp [hb, List.append_assoc]
    · have hk2 : ¬ key = k := fun h => hk h.symm
      simp [hk, hk2]

theorem append_knows (st : BufferedNumpyDiskMap) (key k : Nat)
    (vals : List Int) :
    knowsKey (st.append key vals) k =
      (knowsKey st k || decide (key = k)) := by
  unfold BufferedNumpyDiskMap.append
  by_cases hthr :
      st.bufferSize < ((st.buffer key).getD [] ++ vals).length
  · simp only [hthr, if_true]
    rw [flushKey_knows]
    unfold knowsKey
    by_cases hk : k = key
    · subst hk; simp
    · have hk2 : ¬ key = k := fun h => hk h.symm
      simp [hk, hk2]
  · simp only [hthr, if_false]
    unfold knowsKey
    by_cases hk : k = key
    · subst hk; simp
    · have hk2 : ¬ key = k := fun h => hk h.symm
      simp [hk, hk2]

theorem runMapOps_logical (ops : List MapOp) (st : BufferedNumpyDiskMap)
    (key : Nat) :
    logicalContent (runMapOps st ops) key =
      logicalContent st key ++ appendedTo key ops := by
  induction ops generalizing st with
  | nil => simp [runMapOps, appendedTo]
  | cons op rest ih =>
      cases op with
      | append k vals =>
          simp only [runMapOps, applyMapOp, appendedTo]
          rw [ih, append_logical, List.append_assoc]
      | flush =>
          simp only [runMapOps, applyMapOp, appendedTo]
          rw [ih, flushAll_logical]

theorem runMapOps_knows (ops : List MapOp) (st : BufferedNumpyDiskMap)
    (key : Nat) :
    knowsKey (runMapOps st ops) key =
      (knowsKey st key || touchesKey key ops) := by
  induction ops generalizing st with
  | nil => simp [runMapOps, touchesKey]
  | cons op rest ih =>
      cases op with
      | append k vals =>
          simp only [runMapOps, applyMapOp, touchesKey]
          rw [ih, append_knows]
          by_cases hk : k = key <;> simp [hk]
      | flush =>
          simp only [runMapOps, applyMapOp, touchesKey]
          rw [ih, flushAll_knows]

theorem init_logical (bufferSize key : Nat) :
    logicalContent (BufferedNumpyDiskMap.init bufferSize) key = [] := rfl

/-- C1: for every key and every finite sequence of numeric-array appends,
under any interleaving of appends and buffer flushes and any configured
buffer-size threshold (including 0, which disables buffering), `read(key)`
on a fresh Buffered Disk-Backed Array Map returns exactly the
concatenation of all arrays appended for that key, in append order. -/
theorem buffered_map_round_trip (bufferSize key : Nat) (ops : List MapOp)
    (h : touchesKey key ops = true) :
    (runMapOps (BufferedNumpyDiskMap.init bufferSize) ops).read key =
      some (appendedTo key ops) := by
  have hknows :
      knowsKey (runMapOps (BufferedNumpyDiskMap.init bufferSize) ops) key
        = true := by
    rw [runMapOps_knows, h]
    simp [knowsKey, BufferedNumpyDiskMap.init]
  rw [read_eq_of_knows _ _ hknows, runMapOps_logical, init_logical,
    List.nil_append]

/-- C1 witness: a concrete interleaving (threshold 0, two appends to key
1234 interleaved with a flush and an append to another key) reads back the
exact concatenation. -/
theorem buffered_map_round_trip_witness :
    touchesKey 1234
        [MapOp.append 1234 [1, 2, 3, 4], MapOp.flush,
         MapOp.append 4321 [-4, -1, -2, 4],
         MapOp.append 1234 [1, 2, 3, 4]] = true ∧
      (runMapOps (BufferedNumpyDiskMap.init 0)
          [MapOp.append 1234 [1, 2, 3, 4], MapOp.flush,
           MapOp.append 4321 [-4, -1, -2, 4],
           MapOp.append 1234 [1, 2, 3, 4]]).read 1234 =
        some [1, 2, 3, 4, 1, 2, 3, 4] :=
  ⟨by decide, by
    rw [buffered_map_round_trip 0 1234 _ (by decide)]
    decide⟩

/-- C5: for every key and every prior map state — whatever is buffered or
flushed for that key — after `delete(key)` a read of that key fails with
the not-found error (`none`); the failure persists across any further
operations that do not append to that key again. -/
theorem delete_read_fails (st : BufferedNumpyDiskMap) (key : Nat)
    (ops : List MapOp) (h : touchesKey key ops = false) :
    (runMapOps (st.delete key) ops).read key = none := by
  have hdel : knowsKey (st.delete key) key = false := by
    simp [knowsKey, BufferedNumpyDiskMap.delete]
  have hknows :
      knowsKey (runMapOps (st.delete key) ops) key = false := by
    rw [runMapOps_knows, hdel, h]; rfl
  unfold knowsKey at hknows
  unfold BufferedNumpyDiskMap.read
  cases hd : (runMapOps (st.delete key) ops).disk key <;>
    cases hb : (runMapOps (st.delete key) ops).buffer key <;>
      simp [hd, hb] at hknows ⊢

/-- C5 witness: fill key 1234 both on disk and in buffer, delete it, and
the immediate read fails. -/
theorem delete_read_fails_witness :
    touchesKey 1234 ([] : List MapOp) = false ∧
      ((runMapOps (BufferedNumpyDiskMap.init 0)
            [MapOp.append 1234 [1, 2, 3, 4],
             MapOp.append 1234 [1, 2, 3, 4]]).delete 1234 |>.read 1234)
        = none := by
  refine ⟨by decide, ?_⟩
  have h := delete_read_fails
    (runMapOps (BufferedNumpyDiskMap.init 0)
      [MapOp.append 1234 [1, 2, 3, 4], MapOp.append 1234 [1, 2, 3, 4]])
    1234 [] (by decide)
  simpa [runMapOps] using h

/-! ## Point-in-Polygon Aggregator (spec section 4.3)

Modelled from the spec: `recmodel_server`'s PUD calculation is absent from
the source tree.  A point observation is `(user_id, latitude, longitude,
timestamp)`; the aggregator computes the polygon's candidate points, tests
exact containment by ray casting, filters by an inclusive date range,
counts distinct `(user_id, calendar_day)` pairs, buckets them into 12
calendar months, and averages per year; `start_date > end_date` is an
input validation error surfaced before aggregation begins.  Coordinates
are modelled as exact integers (the claims' geometry is exact), calendar
dates as `(year, month, day)` triples. -/

structure Date where
  year : Nat
  month : Nat
  day : Nat
deriving DecidableEq

/-- Lexicographic date comparison (year, then month, then day). -/
def Date.le (a b : Date) : Bool :=
  Nat.blt a.year b.year ||
    (a.year == b.year &&
      (Nat.blt a.month b.month ||
        (a.month == b.month && Nat.ble a.day b.day)))

/-- Inclusive-start, inclusive-end date range membership. -/
def dateInRange (s e d : Date) : Bool :=
  Date.le s d && Date.le d e

/-- A point observation: `(user_id, latitude, longitude, timestamp)`. -/
structure Obs where
  user : Nat
  x : ℤ
  y : ℤ
  date : Date
deriving DecidableEq

/-- One ray-casting crossing test for the edge `(v, w)` against a
rightward horizontal ray from `(px, py)`: the edge must straddle the
ray's height, and the ray's origin must lie strictly left of the edge's
crossing abscissa.  The textbook division by the edge's y-span (nonzero
when the straddle test passes) is cleared by multiplying through with a
sign-correct inequality direction, keeping the test exact over ℤ. -/
def edgeCrosses (px py : ℤ) (v w : ℤ × ℤ) : Bool :=
  (decide (py < v.2) != decide (py < w.2)) &&
    (if v.2 < w.2 then
      decide ((px - v.1) * (w.2 - v.2) < (w.1 - v.1) * (py - v.2))
    else
      decide ((w.1 - v.1) * (py - v.2) < (px - v.1) * (w.2 - v.2)))

/-- Modelled from the spec: exact point-in-polygon containment by ray
casting over the polygon's ordered ring of vertices (odd crossing count
means inside).  The claims exercise single-ring polygons only. -/
def pointInPoly (poly : List (ℤ × ℤ)) (px py : ℤ) : Bool :=
  (poly.zip (poly.rotate 1)).foldl
    (fun acc e => acc != edgeCrosses px py e.1 e.2) false

/-- Aggregation errors surfaced to the caller. -/
inductive AggErr where
  | invalidDateRange
deriving DecidableEq

/-- The PUD Result: 12 monthly distinct-user-day counts, their annual
averages, and the total distinct `(user, day)` count. -/
structure PudResult where
  monthlyCounts : List Nat
  monthlyAverages : List ℚ
  total : Nat
deriving DecidableEq

/-- The distinct `(user_id, calendar_day)` pairs of an observation
list. -/
def userDayPairs (obs : List Obs) : List (Nat × Date) :=
  (obs.map fun o => (o.user, o.date)).dedup

/-- Modelled from the spec: the PUD computation for one polygon over an
already validated date range — filter candidates by exact containment and
the inclusive date range, deduplicate `(user, day)` pairs, bucket them by
calendar month, divide by the years spanned for the annual-average
monthly metric, and sum the monthly buckets for the total. -/
def pudCompute (poly : List (ℤ × ℤ)) (startDate endDate : Date)
    (obs : List Obs) : PudResult :=
  let contained := obs.filter fun o =>
    pointInPoly poly o.x o.y && dateInRange startDate endDate o.date
  let pairs := userDayPairs contained
  let monthly := (List.range 12).map fun m =>
    (pairs.filter fun p => p.2.month == m + 1).length
  let years : ℚ := ((endDate.year : ℚ) + 1 - (startDate.year : ℚ))
  { monthlyCounts := monthly
    monthlyAverages := monthly.map fun c => (c : ℚ) / years
    total := monthly.sum }

/-- Modelled from the spec: `aggregate(quadtree, polygon, date_range)`.
Validates the date range first — a start date after the end date is an
input error raised before any point is scanned — and otherwise runs the
PUD computation. -/
def aggregate (poly : List (ℤ × ℤ)) (startDate endDate : Date)
    (obs : List Obs) : Except AggErr PudResult :=
  match Date.le startDate endDate with
  | true => Except.ok (pudCompute poly startDate endDate obs)
  | false => Except.error AggErr.invalidDateRange

theorem aggregate_eq_ok (poly : List (ℤ × ℤ)) (startDate endDate : Date)
    (obs : List Obs) (h : Date.le startDate endDate = true) :
    aggregate poly startDate endDate obs
      = Except.ok (pudCompute poly startDate endDate obs) := by
  unfold aggregate
  rw [h]

theorem list_sum_map_add {α : Type} (l : List α) (f g : α → Nat) :
    (l.map fun x => f x + g x).sum = (l.map f).sum + (l.map g).sum := by
  induction l with
  | nil => rfl
  | cons a t ih => simp only [List.map_cons, List.sum_cons, ih]; omega

theorem month_indicator_sum (m0 : Nat) (h1 : 1 ≤ m0) (h2 : m0 ≤ 12) :
    ((List.range 12).map fun m => if (m0 == m + 1) = true then 1 else 0).sum
      = 1 := by
  interval_cases m0 <;> decide

theorem sum_month_buckets (l : List (Nat × Date))
    (h : ∀ p ∈ l, 1 ≤ p.2.month ∧ p.2.month ≤ 12) :
    ((List.range 12).map fun m =>
      (l.filter fun p => p.2.month == m + 1).length).sum = l.length := by
  induction l with
  | nil => simp
  | cons p t ih =>
      have hp := h p (List.mem_cons_self p t)
      have ht := ih fun q hq => h q (List.mem_cons_of_mem p hq)
      have hsplit : ∀ m : Nat,
          ((p :: t).filter fun q => q.2.month == m + 1).length
            = (if (p.2.month == m + 1) = true then 1 else 0)
              + (t.filter fun q => q.2.month == m + 1).length := by
        intro m
        by_cases hc : (p.2.month == m + 1) = true <;>
          simp [List.filter_cons, hc] <;> omega
      simp only [hsplit]
      rw [list_sum_map_add, month_indicator_sum p.2.month hp.1 hp.2, ht]
      simp [Nat.add_comm]

/-- C3: for observations all inside the polygon and all within an
accepted date range, with well-formed calendar months, the aggregator's
PUD total equals the number of distinct `(user_id, calendar_day)` pairs —
a user observed twice on one day contributes 1, a user observed on two
different days contributes 2. -/
theorem pud_total_distinct_user_days (poly : List (ℤ × ℤ))
    (startDate endDate : Date) (obs : List Obs)
    (hse : Date.le startDate endDate = true)
    (hin : ∀ o ∈ obs, pointInPoly poly o.x o.y = true)
    (hrange : ∀ o ∈ obs, dateInRange startDate endDate o.date = true)
    (hmonth : ∀ o ∈ obs, 1 ≤ o.date.month ∧ o.date.month ≤ 12) :
    aggregate poly startDate endDate obs
        = Except.ok (pudCompute poly startDate endDate obs) ∧
      (pudCompute poly startDate endDate obs).total
        = (userDayPairs obs).length := by
  have hfilter : (obs.filter fun o =>
      pointInPoly poly o.x o.y && dateInRange startDate endDate o.date)
        = obs := by
    apply List.filter_eq_self.mpr
    intro o ho
    rw [hin o ho, hrange o ho]
    rfl
  refine ⟨aggregate_eq_ok poly startDate endDate obs hse, ?_⟩
  show ((List.range 12).map fun m =>
      ((userDayPairs (obs.filter fun o =>
        pointInPoly poly o.x o.y
          && dateInRange startDate endDate o.date)).filter
        fun p => p.2.month == m + 1).length).sum
    = (userDayPairs obs).length
  rw [hfilter]
  apply sum_month_buckets
  intro p hp
  have hmem : p ∈ obs.map fun o => (o.user, o.date) :=
    List.dedup_subset _ hp
  obtain ⟨o, ho, rfl⟩ := List.mem_map.mp hmem
  exact hmonth o ho

/-- C3 witness: the point multiset
`{(u1, day1), (u1, day1), (u2, day1), (u1, day2)}`, all at `(5,5)` inside
the square `(0,0)-(10,10)` with a date range spanning both days, has
aggregate PUD total 3 (distinct user-day pairs), not 4. -/
theorem pud_total_distinct_user_days_witness :
    aggregate [(0, 0), (10, 0), (10, 10), (0, 10)]
        ⟨2014, 5, 1⟩ ⟨2014, 5, 2⟩
        [⟨1, 5, 5, ⟨2014, 5, 1⟩⟩, ⟨1, 5, 5, ⟨2014, 5, 1⟩⟩,
         ⟨2, 5, 5, ⟨2014, 5, 1⟩⟩, ⟨1, 5, 5, ⟨2014, 5, 2⟩⟩]
      = Except.ok (pudCompute [(0, 0), (10, 0), (10, 10), (0, 10)]
        ⟨2014, 5, 1⟩ ⟨2014, 5, 2⟩
        [⟨1, 5, 5, ⟨2014, 5, 1⟩⟩, ⟨1, 5, 5, ⟨2014, 5, 1⟩⟩,
         ⟨2, 5, 5, ⟨2014, 5, 1⟩⟩, ⟨1, 5, 5, ⟨2014, 5, 2⟩⟩]) ∧
      (pudCompute [(0, 0), (10, 0), (10, 10), (0, 10)]
        ⟨2014, 5, 1⟩ ⟨2014, 5, 2⟩
        [⟨1, 5, 5, ⟨2014, 5, 1⟩⟩, ⟨1, 5, 5, ⟨2014, 5, 1⟩⟩,
         ⟨2, 5, 5, ⟨2014, 5, 1⟩⟩, ⟨1, 5, 5, ⟨2014, 5, 2⟩⟩]).total = 3 := by
  obtain ⟨hok, ht⟩ := pud_total_distinct_user_days
    [(0, 0), (10, 0), (10, 10), (0, 10)] ⟨2014, 5, 1⟩ ⟨2014, 5, 2⟩
    [⟨1, 5, 5, ⟨2014, 5, 1⟩⟩, ⟨1, 5, 5, ⟨2014, 5, 1⟩⟩,
     ⟨2, 5, 5, ⟨2014, 5, 1⟩⟩, ⟨1, 5, 5, ⟨2014, 5, 2⟩⟩]
    (by decide) (by decide) (by decide) (by decide)
  exact ⟨hok, by rw [ht]; decide⟩

/-- C4: for every aggregation request whose date range has
`start_date > end_date`, aggregation fails with the input validation
error — for every observation list, so the failure happens before any
point is scanned and never yields a silently empty result. -/
theorem aggregate_bad_range_fails (poly : List (ℤ × ℤ))
    (startDate endDate : Date) (obs : List Obs)
    (h : Date.le startDate endDate = false) :
    aggregate poly startDate endDate obs
      = Except.error AggErr.invalidDateRange := by
  unfold aggregate
  rw [h]

/-- C4 witness: the date range 2014-01-01 down to 2005-12-31 (start after
end, as in the repository's `test_year_order`) is rejected with the
invalid-date-range error on a nonempty observation list. -/
theorem aggregate_bad_range_fails_witness :
    Date.le ⟨2014, 1, 1⟩ ⟨2005, 12, 31⟩ = false ∧
      aggregate [(0, 0), (10, 0), (10, 10), (0, 10)]
        ⟨2014, 1, 1⟩ ⟨2005, 12, 31⟩ [⟨1, 5, 5, ⟨2010, 6, 1⟩⟩]
        = Except.error AggErr.invalidDateRange :=
  ⟨by decide,
    aggregate_bad_range_fails [(0, 0), (10, 0), (10, 10), (0, 10)]
      ⟨2014, 1, 1⟩ ⟨2005, 12, 31⟩ [⟨1, 5, 5, ⟨2010, 6, 1⟩⟩] (by decide)⟩

/-! ## Spatial Quadtree Index (spec section 4.2)

Modelled from the spec: `out_of_core_quadtree` is absent from the source
tree.  `build(points, bounding_box, max_points_per_leaf)` starts with one
node covering the bounding box and, when a node's point count exceeds the
leaf capacity, splits it into four quadrants and redistributes
recursively; a point exactly on a quadrant boundary goes to the canonical
lower/left side.  `query_range(rectangle)` descends only branches whose
boxes intersect the rectangle and yields the points inside it.
Coordinates are exact integers; quadrant midpoints use floor halving, and
a recursion-depth fuel bounds the (in practice depth-limited) split
recursion — every claim below holds for every fuel value. -/

structure Rect where
  xmin : ℤ
  ymin : ℤ
  xmax : ℤ
  ymax : ℤ
deriving DecidableEq

/-- A point reference: an identity (its index in the raw stream) plus
coordinates. -/
structure Point where
  pid : Nat
  x : ℤ
  y : ℤ
deriving DecidableEq

/-- Closed-rectangle point containment. -/
def Rect.containsP (r : Rect) (p : Point) : Bool :=
  decide (r.xmin ≤ p.x) && decide (p.x ≤ r.xmax) &&
    decide (r.ymin ≤ p.y) && decide (p.y ≤ r.ymax)

/-- Closed-rectangle overlap test. -/
def Rect.intersects (r q : Rect) : Bool :=
  decide (r.xmin ≤ q.xmax) && decide (q.xmin ≤ r.xmax) &&
    decide (r.ymin ≤ q.ymax) && decide (q.ymin ≤ r.ymax)

/-- The x coordinate of the vertical quadrant split line. -/
def Rect.midX (r : Rect) : ℤ := (r.xmin + r.xmax) / 2

/-- The y coordinate of the horizontal quadrant split line. -/
def Rect.midY (r : Rect) : ℤ := (r.ymin + r.ymax) / 2

/-- Lower-left quadrant box. -/
def Rect.llQuad (r : Rect) : Rect := ⟨r.xmin, r.ymin, r.midX, r.midY⟩

/-- Lower-right quadrant box. -/
def Rect.lrQuad (r : Rect) : Rect := ⟨r.midX, r.ymin, r.xmax, r.midY⟩

/-- Upper-left quadrant box. -/
def Rect.ulQuad (r : Rect) : Rect := ⟨r.xmin, r.midY, r.midX, r.ymax⟩

/-- Upper-right quadrant box. -/
def Rect.urQuad (r : Rect) : Rect := ⟨r.midX, r.midY, r.xmax, r.ymax⟩

/-- Canonical tie-break: a point on or left of the vertical split line is
assigned to the left quadrants. -/
def leftOf (r : Rect) (p : Point) : Bool := decide (p.x ≤ r.midX)

/-- Canonical tie-break: a point on or below the horizontal split line is
assigned to the lower quadrants. -/
def lowerOf (r : Rect) (p : Point) : Bool := decide (p.y ≤ r.midY)

inductive Quadtree where
  | leaf (r : Rect) (pts : List Point)
  | node (r : Rect) (ll lr ul ur : Quadtree)
deriving DecidableEq

/-- Modelled from the spec: top-down construction — a node holding at
most `cap` points is a leaf; otherwise the node splits into four
quadrants and redistributes its points by location, each point going to
exactly one quadrant under the lower/left-inclusive tie-break. -/
def build (cap : Nat) : Nat → Rect → List Point → Quadtree
  | 0, r, pts => .leaf r pts
  | fuel + 1, r, pts =>
      if pts.length ≤ cap then .leaf r pts
      else
        .node r
          (build cap fuel r.llQuad
            (pts.filter fun p => leftOf r p && lowerOf r p))
          (build cap fuel r.lrQuad
            (pts.filter fun p => !leftOf r p && lowerOf r p))
          (build cap fuel r.ulQuad
            (pts.filter fun p => leftOf r p && !lowerOf r p))
          (build cap fuel r.urQuad
            (pts.filter fun p => !leftOf r p && !lowerOf r p))

/-- Modelled from the spec: `query_range` descends only the branches
whose boxes intersect the query rectangle and returns the points whose
coordinates fall within it. -/
def queryRange (q : Rect) : Quadtree → List Point
  | .leaf r pts => if r.intersects q then pts.filter (q.containsP ·) else []
  | .node r ll lr ul ur =>
      if r.intersects q then
        queryRange q ll ++ queryRange q lr ++ queryRange q ul
          ++ queryRange q ur
      else []

theorem containsP_intersects (r q : Rect) (p : Point)
    (hr : r.containsP p = true) (hq : q.containsP p = true) :
    r.intersects q = true := by
  simp only [Rect.containsP, Bool.and_eq_true, decide_eq_true_eq] at hr hq
  simp only [Rect.intersects, Bool.and_eq_true, decide_eq_true_eq]
  omega

theorem filter_nil_of_no_intersect (r q : Rect) (pts : List Point)
    (hin : ∀ p ∈ pts, r.containsP p = true)
    (hni : r.intersects q = false) :
    pts.filter (q.containsP ·) = [] := by
  apply List.filter_eq_nil_iff.mpr
  intro p hp hq
  rw [containsP_intersects r q p (hin p hp) hq] at hni
  exact absurd hni (by decide)

theorem llQuad_contains (r : Rect) (p : Point) (hr : r.containsP p = true)
    (ha : leftOf r p = true) (hb : lowerOf r p = true) :
    r.llQuad.containsP p = true := by
  simp only [Rect.containsP, Bool.and_eq_true, decide_eq_true_eq] at hr ⊢
  simp only [leftOf, lowerOf, decide_eq_true_eq] at ha hb
  simp only [Rect.llQuad]
  omega

theorem lrQuad_contains (r : Rect) (p : Point) (hr : r.containsP p = true)
    (ha : leftOf r p = false) (hb : lowerOf r p = true) :
    r.lrQuad.containsP p = true := by
  simp only [Rect.containsP, Bool.and_eq_true, decide_eq_true_eq] at hr ⊢
  simp only [leftOf, lowerOf, decide_eq_true_eq, decide_eq_false_iff_not,
    not_le] at ha hb
  simp only [Rect.lrQuad]
  omega

theorem ulQuad_contains (r : Rect) (p : Point) (hr : r.containsP p = true)
    (ha : leftOf r p = true) (hb : lowerOf r p = false) :
    r.ulQuad.containsP p = true := by
  simp only [Rect.containsP, Bool.and_eq_true, decide_eq_true_eq] at hr ⊢
  simp only [leftOf, lowerOf, decide_eq_true_eq, decide_eq_false_iff_not,
    not_le] at ha hb
  simp only [Rect.ulQuad]
  omega

theorem urQuad_contains (r : Rect) (p : Point) (hr : r.containsP p = true)
    (ha : leftOf r p = false) (hb : lowerOf r p = false) :
    r.urQuad.containsP p = true := by
  simp only [Rect.containsP, Bool.and_eq_true, decide_eq_true_eq] at hr ⊢
  simp only [leftOf, lowerOf, decide_eq_true_eq, decide_eq_false_iff_not,
    not_le] at ha hb
  simp only [Rect.urQuad]
  omega

theorem perm_cons_third {α : Type} (x : α) (A B C D : List α) :
    (x :: (A ++ (B ++ (C ++ D)))).Perm (A ++ (B ++ (x :: (C ++ D)))) := by
  have s1 : (x :: (A ++ (B ++ (C ++ D)))).Perm
      (A ++ (x :: (B ++ (C ++ D)))) := List.perm_middle.symm
  have s2 : (x :: (B ++ (C ++ D))).Perm (B ++ (x :: (C ++ D))) :=
    List.perm_middle.symm
  exact s1.trans (s2.append_left A)

theorem perm_cons_fourth {α : Type} (x : α) (A B C D : List α) :
    (x :: (A ++ (B ++ (C ++ D)))).Perm (A ++ (B ++ (C ++ x :: D))) := by
  have t1 : (x :: (C ++ D)).Perm (C ++ x :: D) := List.perm_middle.symm
  have t2 : (x :: (B ++ (C ++ D))).Perm (B ++ (x :: (C ++ D))) :=
    List.perm_middle.symm
  have s1 : (x :: (A ++ (B ++ (C ++ D)))).Perm
      (A ++ (x :: (B ++ (C ++ D)))) := List.perm_middle.symm
  exact s1.trans ((t2.trans (t1.append_left B)).append_left A)

theorem quadrant_partition_perm {α : Type} (a b : α → Bool)
    (pts : List α) :
    pts.Perm
      (pts.filter (fun p => a p && b p)
        ++ pts.filter (fun p => !a p && b p)
        ++ pts.filter (fun p => a p && !b p)
        ++ pts.filter (fun p => !a p && !b p)) := by
  induction pts with
  | nil => simp
  | cons p t ih =>
      cases ha : a p <;> cases hb : b p <;>
        simp only [List.filter_cons, ha, hb, Bool.not_true, Bool.not_false,
          Bool.and_true, Bool.and_false, Bool.true_and, Bool.false_and,
          Bool.and_self] <;>
        simp only [show (false = true) = False by simp,
          show (true = true) = True by simp, if_true, if_false]
      · -- a = false, b = false: p lands in the fourth block
        refine (ih.cons p).trans ?_
        simp only [List.append_assoc]
        exact perm_cons_fourth p _ _ _ _
      · -- a = false, b = true: p lands in the second block
        refine (ih.cons p).trans ?_
        simp only [List.append_assoc, List.cons_append]
        exact List.perm_middle.symm
      · -- a = true, b = false: p lands in the third block
        refine (ih.cons p).trans ?_
        simp only [List.append_assoc, List.cons_append]
        exact perm_cons_third p _ _ _ _
      · -- a = true, b = true: p lands in the first block
        exact ih.cons p

theorem leaf_query_perm (r q : Rect) (pts : List Point)
    (hin : ∀ p ∈ pts, r.containsP p = true) :
    (queryRange q (.leaf r pts)).Perm (pts.filter (q.containsP ·)) := by
  unfold queryRange
  cases hi : r.intersects q with
  | true => exact List.Perm.refl _
  | false =>
      rw [filter_nil_of_no_intersect r q pts hin hi]
      exact List.Perm.refl _

theorem build_query_perm (cap fuel : Nat) (r q : Rect) (pts : List Point)
    (hin : ∀ p ∈ pts, r.containsP p = true) :
    (queryRange q (build cap fuel r pts)).Perm
      (pts.filter (q.containsP ·)) := by
  induction fuel generalizing r pts with
  | zero => exact leaf_query_perm r q pts hin
  | succ fuel ih =>
      show (queryRange q (build cap (fuel + 1) r pts)).Perm _
      unfold build
      by_cases hlen : pts.length ≤ cap
      · rw [if_pos hlen]
        exact leaf_query_perm r q pts hin
      · rw [if_neg hlen]
        show (queryRange q (.node r _ _ _ _)).Perm _
        unfold queryRange
        cases hi : r.intersects q with
        | false =>
            rw [filter_nil_of_no_intersect r q pts hin hi]
            exact List.Perm.refl _
        | true =>
            have h1 := ih r.llQuad
              (pts.filter fun p => leftOf r p && lowerOf r p)
              (by
                intro p hp
                have hm := List.mem_filter.mp hp
                have hc : leftOf r p = true ∧ lowerOf r p = true := by
                  simpa using hm.2
                exact llQuad_contains r p (hin p hm.1) hc.1 hc.2)
            have h2 := ih r.lrQuad
              (pts.filter fun p => !leftOf r p && lowerOf r p)
              (by
                intro p hp
                have hm := List.mem_filter.mp hp
                have hc : leftOf r p = false ∧ lowerOf r p = true := by
                  simpa using hm.2
                exact lrQuad_contains r p (hin p hm.1) hc.1 hc.2)
            have h3 := ih r.ulQuad
              (pts.filter fun p => leftOf r p && !lowerOf r p)
              (by
                intro p hp
                have hm := List.mem_filter.mp hp
                have hc : leftOf r p = true ∧ lowerOf r p = false := by
                  simpa using hm.2
                exact ulQuad_contains r p (hin p hm.1) hc.1 hc.2)
            have h4 := ih r.urQuad
              (pts.filter fun p => !leftOf r p && !lowerOf r p)
              (by
                intro p hp
                have hm := List.mem_filter.mp hp
                have hc : leftOf r p = false ∧ lowerOf r p = false := by
                  simpa using hm.2
                exact urQuad_contains r p (hin p hm.1) hc.1 hc.2)
            have hpart :=
              (quadrant_partition_perm (leftOf r) (lowerOf r) pts).filter
                (q.containsP ·)
            rw [List.filter_append, List.filter_append,
              List.filter_append] at hpart
            exact (((h1.append h2).append h3).append h4).trans hpart.symm
/-- C2: for every point set contained in the bounding box and every
axis-aligned query rectangle, `query_range` on the built quadtree returns
exactly the points whose coordinates fall within the rectangle — no false
negatives and no extra points (a permutation of the brute-force linear
scan). -/
theorem quadtree_query_exact (cap fuel : Nat) (r q : Rect)
    (pts : List Point) (hin : ∀ p ∈ pts, r.containsP p = true) :
    (queryRange q (build cap fuel r pts)).Perm
      (pts.filter (q.containsP ·)) :=
  build_query_perm cap fuel r q pts hin

/-- C2 witness: the concrete scenario — 4 points at
`(0,0),(0,0),(1,1),(100,100)` with leaf capacity 2 over bounding box
`(0,0)-(100,100)`; querying `(0,0)-(2,2)` returns exactly the first three
points and querying `(99,99)-(100,100)` returns exactly the fourth. -/
theorem quadtree_query_exact_witness :
    (∀ p ∈ [Point.mk 0 0 0, Point.mk 1 0 0, Point.mk 2 1 1,
        Point.mk 3 100 100], (Rect.mk 0 0 100 100).containsP p = true) ∧
      (queryRange (Rect.mk 0 0 2 2)
          (build 2 20 (Rect.mk 0 0 100 100)
            [Point.mk 0 0 0, Point.mk 1 0 0, Point.mk 2 1 1,
             Point.mk 3 100 100])).Perm
        ([Point.mk 0 0 0, Point.mk 1 0 0, Point.mk 2 1 1,
          Point.mk 3 100 100].filter ((Rect.mk 0 0 2 2).containsP ·)) ∧
      queryRange (Rect.mk 0 0 2 2)
          (build 2 20 (Rect.mk 0 0 100 100)
            [Point.mk 0 0 0, Point.mk 1 0 0, Point.mk 2 1 1,
             Point.mk 3 100 100])
        = [Point.mk 0 0 0, Point.mk 1 0 0, Point.mk 2 1 1] ∧
      queryRange (Rect.mk 99 99 100 100)
          (build 2 20 (Rect.mk 0 0 100 100)
            [Point.mk 0 0 0, Point.mk 1 0 0, Point.mk 2 1 1,
             Point.mk 3 100 100])
        = [Point.mk 3 100 100] :=
  ⟨by decide,
    quadtree_query_exact 2 20 (Rect.mk 0 0 100 100) (Rect.mk 0 0 2 2)
      [Point.mk 0 0 0, Point.mk 1 0 0, Point.mk 2 1 1, Point.mk 3 100 100]
      (by decide),
    by decide, by decide⟩

/-- Whether a point lies exactly on a quadrant split line of some split
node anywhere in the built tree (the vertical or horizontal midline of
any node that was split into four quadrants). -/
def onSplitLine (p : Point) : Quadtree → Bool
  | .leaf _ _ => false
  | .node r ll lr ul ur =>
      p.x == r.midX || p.y == r.midY || onSplitLine p ll
        || onSplitLine p lr || onSplitLine p ul || onSplitLine p ur

/-- C6: a point lying exactly on a quadrant split line anywhere in the
built quadtree — at the root or at any deeper split node — is assigned
during the (deterministic) build to a single canonical quadrant, the
lower/left-inclusive side, so querying the full bounding box returns
each such point exactly as many times as it occurs in the dataset: never
zero times and never twice.  (The proof establishes the count for every
dataset point; the split-line hypothesis delimits the claim's domain.) -/
theorem quadtree_boundary_point_once (cap fuel : Nat) (r : Rect)
    (pts : List Point) (p : Point)
    (hin : ∀ q ∈ pts, r.containsP q = true) (hp : p ∈ pts)
    (hbound : onSplitLine p (build cap fuel r pts) = true) :
    (queryRange r (build cap fuel r pts)).count p = pts.count p := by
  have hperm := build_query_perm cap fuel r r pts hin
  have hfilter : pts.filter (r.containsP ·) = pts :=
    List.filter_eq_self.mpr fun a ha => hin a ha
  rw [hfilter] at hperm
  exact hperm.count_eq p

/-- C6 witness: with capacity 1 over box `(0,0)-(100,100)`, the dataset
`(25,25),(10,10),(40,40),(90,90)` splits the root at `(50,50)` and the
lower-left quadrant `(0,0)-(50,50)` at `(25,25)`, so the point `(25,25)`
lies exactly on a depth-1 quadrant split line; the full-box query still
returns it exactly once. -/
theorem quadtree_boundary_point_once_witness :
    (∀ q ∈ [Point.mk 0 25 25, Point.mk 1 10 10, Point.mk 2 40 40,
        Point.mk 3 90 90], (Rect.mk 0 0 100 100).containsP q = true) ∧
      Point.mk 0 25 25 ∈
        [Point.mk 0 25 25, Point.mk 1 10 10, Point.mk 2 40 40,
          Point.mk 3 90 90] ∧
      onSplitLine (Point.mk 0 25 25)
        (build 1 20 (Rect.mk 0 0 100 100)
          [Point.mk 0 25 25, Point.mk 1 10 10, Point.mk 2 40 40,
            Point.mk 3 90 90]) = true ∧
      (queryRange (Rect.mk 0 0 100 100)
          (build 1 20 (Rect.mk 0 0 100 100)
            [Point.mk 0 25 25, Point.mk 1 10 10, Point.mk 2 40 40,
              Point.mk 3 90 90])).count (Point.mk 0 25 25)
        = [Point.mk 0 25 25, Point.mk 1 10 10, Point.mk 2 40 40,
            Point.mk 3 90 90].count (Point.mk 0 25 25) ∧
      [Point.mk 0 25 25, Point.mk 1 10 10, Point.mk 2 40 40,
        Point.mk 3 90 90].count (Point.mk 0 25 25) = 1 :=
  ⟨by decide, by decide, by decide,
    quadtree_boundary_point_once 1 20 (Rect.mk 0 0 100 100)
      [Point.mk 0 25 25, Point.mk 1 10 10, Point.mk 2 40 40,
        Point.mk 3 90 90]
      (Point.mk 0 25 25) (by decide) (by decide) (by decide),
    by decide⟩
/-! ## Quadtree persistence (spec sections 4.2 and design note on an
explicit binary layout)

Modelled from the spec: the built tree is serialized to disk as a single
artifact and `load(path)` reconstructs an equivalent tree without
rescanning raw points.  Following the spec's design note, the layout is
explicit: a tag, the node bounding box, then either a length-prefixed
leaf payload or the four child encodings in order; the decoder consumes a
token stream and returns the remaining tokens. -/

/-- Flat encoding of a leaf payload: `pid, x, y` per point. -/
def encodePts : List Point → List ℤ
  | [] => []
  | p :: rest => (p.pid : ℤ) :: p.x :: p.y :: encodePts rest

/-- Explicit serialized layout of a quadtree (tag 0 = leaf with
length-prefixed payload, tag 1 = node with four child encodings). -/
def Quadtree.encode : Quadtree → List ℤ
  | .leaf r pts =>
      0 :: r.xmin :: r.ymin :: r.xmax :: r.ymax :: (pts.length : ℤ)
        :: encodePts pts
  | .node r ll lr ul ur =>
      1 :: r.xmin :: r.ymin :: r.xmax :: r.ymax
        :: (ll.encode ++ lr.encode ++ ul.encode ++ ur.encode)

/-- Node count of a quadtree, a fuel bound for the decoder. -/
def Quadtree.size : Quadtree → Nat
  | .leaf _ _ => 1
  | .node _ ll lr ul ur => 1 + ll.size + lr.size + ul.size + ur.size

/-- Decoder for a length-prefixed leaf payload; returns the points and
the unconsumed tokens. -/
def decodePts : Nat → List ℤ → Option (List Point × List ℤ)
  | 0, rest => some ([], rest)
  | Nat.succ k, a :: x :: y :: rest =>
      match decodePts k rest with
      | some (ps, rest2) => some (⟨a.toNat, x, y⟩ :: ps, rest2)
      | none => none
  | Nat.succ _, _ => none

/-- Modelled from the spec: `load` — decode one serialized tree from a
token stream (with a recursion fuel), returning it and the unconsumed
tokens. -/
def decodeQT : Nat → List ℤ → Option (Quadtree × List ℤ)
  | 0, _ => none
  | Nat.succ _, 0 :: a :: b :: c :: d :: n :: rest =>
      match decodePts n.toNat rest with
      | some (ps, rest2) => some (.leaf ⟨a, b, c, d⟩ ps, rest2)
      | none => none
  | Nat.succ fuel, 1 :: a :: b :: c :: d :: rest =>
      match decodeQT fuel rest with
      | some (ll, r1) =>
          match decodeQT fuel r1 with
          | some (lr, r2) =>
              match decodeQT fuel r2 with
              | some (ul, r3) =>
                  match decodeQT fuel r3 with
                  | some (ur, r4) =>
                      some (.node ⟨a, b, c, d⟩ ll lr ul ur, r4)
                  | none => none
              | none => none
          | none => none
      | none => none
  | Nat.succ _, _ => none

/-- Querying a persisted artifact: decode, then query the reconstructed
tree (an undecodable artifact yields no points). -/
def queryLoaded (fuel : Nat) (data : List ℤ) (q : Rect) : List Point :=
  match decodeQT fuel data with
  | some (t, _) => queryRange q t
  | none => []

theorem decodePts_encodePts (pts : List Point) (rest : List ℤ) :
    decodePts pts.length (encodePts pts ++ rest) = some (pts, rest) := by
  induction pts with
  | nil => rfl
  | cons p t ih =>
      show decodePts (t.length + 1)
        (((p.pid : ℤ) :: p.x :: p.y :: encodePts t) ++ rest) = _
      simp only [List.cons_append, List.append_eq, decodePts, ih,
        Int.toNat_natCast]

theorem decodeQT_encode (t : Quadtree) :
    ∀ fuel, t.size ≤ fuel → ∀ rest,
      decodeQT fuel (t.encode ++ rest) = some (t, rest) := by
  induction t with
  | leaf r pts =>
      intro fuel hf rest
      cases fuel with
      | zero => simp [Quadtree.size] at hf
      | succ f =>
          show decodeQT (f + 1)
            ((0 :: r.xmin :: r.ymin :: r.xmax :: r.ymax
              :: (pts.length : ℤ) :: encodePts pts) ++ rest) = _
          simp only [List.cons_append, List.append_eq, decodeQT,
            Int.toNat_natCast, decodePts_encodePts]
  | node r ll lr ul ur ihll ihlr ihul ihur =>
      intro fuel hf rest
      cases fuel with
      | zero => simp only [Quadtree.size] at hf; omega
      | succ f =>
          have hsz : ll.size ≤ f ∧ lr.size ≤ f ∧ ul.size ≤ f
              ∧ ur.size ≤ f := by
            simp only [Quadtree.size] at hf
            omega
          show decodeQT (f + 1)
            ((1 :: r.xmin :: r.ymin :: r.xmax :: r.ymax
              :: (ll.encode ++ lr.encode ++ ul.encode ++ ur.encode))
                ++ rest) = _
          simp only [List.cons_append, List.append_assoc, List.append_eq,
            decodeQT, ihll f hsz.1, ihlr f hsz.2.1, ihul f hsz.2.2.1,
            ihur f hsz.2.2.2]

/-- C7: building the quadtree from a point dataset is a pure function —
two builds from the same dataset are the same tree, so the same query
yields identical point sets — and the persisted artifact round-trips:
decoding the serialized tree reconstructs it exactly (without the raw
points), and querying the loaded tree returns exactly the fresh tree's
result. -/
theorem quadtree_persist_load_equiv (cap fuel : Nat) (r q : Rect)
    (pts : List Point) :
    decodeQT (build cap fuel r pts).size (build cap fuel r pts).encode
        = some (build cap fuel r pts, ([] : List ℤ)) ∧
      queryLoaded (build cap fuel r pts).size
          (build cap fuel r pts).encode q
        = queryRange q (build cap fuel r pts) := by
  have hdec : decodeQT (build cap fuel r pts).size
      (build cap fuel r pts).encode
        = some (build cap fuel r pts, ([] : List ℤ)) := by
    have h := decodeQT_encode (build cap fuel r pts)
      (build cap fuel r pts).size (Nat.le_refl _) []
    rwa [List.append_nil] at h
  refine ⟨hdec, ?_⟩
  unfold queryLoaded
  rw [hdec]
/-! ## Parallel Aggregation Scheduler (spec section 4.4)

Modelled from the spec: the scheduler distributes an ordered sequence of
per-feature aggregation requests across a fixed-size worker pool through
a shared FIFO work queue holding every indexed request up front followed
by one sentinel per worker; a worker pulls a request, computes its PUD
Result against the shared index, and pushes `(feature_index, result)` to
a shared result channel; pulling a sentinel makes the worker exit.
Workers are symmetric, so the pool is modelled by its idle and exited
counts plus the multiset of in-flight computed results; an adversarial
schedule chooses at every step which kind of event fires (a pull from the
queue, or some in-flight worker pushing its result), which covers every
completion order. -/

structure AggReq where
  poly : List (ℤ × ℤ)
  startDate : Date
  endDate : Date
deriving DecidableEq

/-- One worker's computation for one request against the shared point
index. -/
def compute (pts : List Obs) (req : AggReq) : Except AggErr PudResult :=
  aggregate req.poly req.startDate req.endDate pts

structure SchedState where
  work : List (Sum (Nat × AggReq) Unit)
  idleCount : Nat
  busy : List (Nat × Except AggErr PudResult)
  doneCount : Nat
  results : List (Nat × Except AggErr PudResult)

/-- A scheduling event: an idle worker pulls the next queue item, or the
`i`-th in-flight worker pushes its finished result. -/
inductive SchedChoice where
  | pull
  | push (i : Nat)

/-- One scheduler step; `none` when the chosen event is not enabled. -/
def schedStep (pts : List Obs) (st : SchedState) :
    SchedChoice → Option SchedState
  | .pull =>
      match st.work, st.idleCount with
      | Sum.inl (idx, req) :: rest, idles + 1 =>
          some { st with
            work := rest
            idleCount := idles
            busy := st.busy ++ [(idx, compute pts req)] }
      | Sum.inr _ :: rest, idles + 1 =>
          some { st with
            work := rest
            idleCount := idles
            doneCount := st.doneCount + 1 }
      | _, _ => none
  | .push i =>
      match st.busy[i]? with
      | some r =>
          some { st with
            busy := st.busy.eraseIdx i
            idleCount := st.idleCount + 1
            results := st.results ++ [r] }
      | none => none

/-- Run a schedule of events left to right. -/
def schedRun (pts : List Obs) (st : SchedState) :
    List SchedChoice → Option SchedState
  | [] => some st
  | c :: cs =>
      match schedStep pts st c with
      | some st2 => schedRun pts st2 cs
      | none => none

/-- The initial work queue: every request tagged with its feature index,
in order, followed by one sentinel (`STOP`) per worker. -/
def initQueue (reqs : List AggReq) (k : Nat) :
    List (Sum (Nat × AggReq) Unit) :=
  (reqs.enum.map Sum.inl) ++ List.replicate k (Sum.inr ())

/-- The initial scheduler state for `k` workers. -/
def schedInit (reqs : List AggReq) (k : Nat) : SchedState :=
  ⟨initQueue reqs k, k, [], 0, []⟩

/-- The full expected batch output: each feature index paired with its
computed result. -/
def taggedResults (pts : List Obs) (reqs : List AggReq) :
    List (Nat × Except AggErr PudResult) :=
  reqs.enum.map fun p => (p.1, compute pts p.2)

/-- Scheduler invariant: `j` queue items have been consumed; the emitted
plus in-flight results are exactly the computations of the first `j`
consumed requests; workers are conserved, and one exited per consumed
sentinel. -/
def SchedInv (pts : List Obs) (reqs : List AggReq) (k : Nat)
    (st : SchedState) : Prop :=
  ∃ j, j ≤ reqs.length + k ∧
    st.work = (initQueue reqs k).drop j ∧
    st.doneCount = j - reqs.length ∧
    st.idleCount + st.busy.length + st.doneCount = k ∧
    (st.results ++ st.busy).Perm ((taggedResults pts reqs).take j)

theorem initQueue_length (reqs : List AggReq) (k : Nat) :
    (initQueue reqs k).length = reqs.length + k := by
  simp [initQueue, List.enum_length]

theorem taggedResults_length (pts : List Obs) (reqs : List AggReq) :
    (taggedResults pts reqs).length = reqs.length := by
  simp [taggedResults, List.enum_length]

theorem drop_initQueue_lt (reqs : List AggReq) (k j : Nat)
    (h : j < reqs.length) :
    (initQueue reqs k).drop j
      = Sum.inl (j, reqs.get ⟨j, h⟩) :: (initQueue reqs k).drop (j + 1) := by
  have hlen : j < (initQueue reqs k).length := by
    rw [initQueue_length]; omega
  rw [List.drop_eq_getElem_cons hlen]
  congr 1
  have hj : j < (reqs.enum.map
      (Sum.inl : Nat × AggReq → Sum (Nat × AggReq) Unit)).length := by
    simp [List.enum_length]; omega
  unfold initQueue
  rw [List.getElem_append_left hj, List.getElem_map, List.getElem_enum]
  rfl

theorem drop_initQueue_sentinel (reqs : List AggReq) (k j : Nat)
    (h1 : reqs.length ≤ j) (h2 : j < reqs.length + k) :
    (initQueue reqs k).drop j
      = Sum.inr () :: (initQueue reqs k).drop (j + 1) := by
  have hlen : j < (initQueue reqs k).length := by
    rw [initQueue_length]; omega
  rw [List.drop_eq_getElem_cons hlen]
  congr 1
  have hN : (reqs.enum.map
      (Sum.inl : Nat × AggReq → Sum (Nat × AggReq) Unit)).length ≤ j := by
    simp [List.enum_length]; omega
  unfold initQueue
  rw [List.getElem_append_right hN, List.getElem_replicate]

theorem take_taggedResults_succ (pts : List Obs) (reqs : List AggReq)
    (j : Nat) (h : j < reqs.length) :
    (taggedResults pts reqs).take (j + 1)
      = (taggedResults pts reqs).take j
        ++ [(j, compute pts (reqs.get ⟨j, h⟩))] := by
  rw [List.take_succ]
  congr 1
  rw [taggedResults, List.getElem?_map, List.getElem?_enum,
    List.getElem?_eq_getElem h]
  rfl

theorem cons_eraseIdx_perm {α : Type} (l : List α) (i : Nat) (x : α)
    (h : l[i]? = some x) : l.Perm (x :: l.eraseIdx i) := by
  induction l generalizing i with
  | nil => simp at h
  | cons a t ih =>
      cases i with
      | zero =>
          simp only [List.getElem?_cons_zero, Option.some.injEq] at h
          subst h
          exact List.Perm.refl _
      | succ i =>
          simp only [List.getElem?_cons_succ] at h
          have ht := ih i h
          exact (ht.cons a).trans (List.Perm.swap x a _)
theorem schedStep_inv (pts : List Obs) (reqs : List AggReq) (k : Nat)
    (st st2 : SchedState) (c : SchedChoice)
    (hstep : schedStep pts st c = some st2)
    (hinv : SchedInv pts reqs k st) : SchedInv pts reqs k st2 := by
  obtain ⟨j, hjle, hwork, hdone, hcount, hperm⟩ := hinv
  cases c with
  | pull =>
      cases hw : st.work with
      | nil => simp [schedStep, hw] at hstep
      | cons item rest =>
          cases item with
          | inl ir =>
              obtain ⟨idx, req⟩ := ir
              cases hi : st.idleCount with
              | zero => simp [schedStep, hw, hi] at hstep
              | succ idles =>
                  simp only [schedStep, hw, hi, Option.some.injEq] at hstep
                  subst hstep
                  have hjN : j < reqs.length := by
                    by_contra hge
                    push_neg at hge
                    by_cases hlt : j < reqs.length + k
                    · rw [hw, drop_initQueue_sentinel reqs k j hge hlt]
                        at hwork
                      simp at hwork
                    · have hnil : (initQueue reqs k).drop j = [] :=
                        List.drop_eq_nil_of_le
                          (by rw [initQueue_length]; omega)
                      rw [hw, hnil] at hwork
                      simp at hwork
                  rw [hw, drop_initQueue_lt reqs k j hjN] at hwork
                  injection hwork with h1 h2
                  injection h1 with h3
                  injection h3 with hidx hreq
                  refine ⟨j + 1, by omega, ?_, ?_, ?_, ?_⟩
                  · exact h2
                  · show st.doneCount = (j + 1) - reqs.length
                    rw [hdone]; omega
                  · show idles + (st.busy ++ [(idx, compute pts req)]).length
                        + st.doneCount = k
                    rw [hi] at hcount
                    simp only [List.length_append, List.length_cons,
                      List.length_nil]
                    omega
                  · show (st.results
                        ++ (st.busy ++ [(idx, compute pts req)])).Perm
                      ((taggedResults pts reqs).take (j + 1))
                    rw [take_taggedResults_succ pts reqs j hjN,
                      ← List.append_assoc, hidx, hreq]
                    exact hperm.append (List.Perm.refl _)
          | inr u =>
              cases u
              cases hi : st.idleCount with
              | zero => simp [schedStep, hw, hi] at hstep
              | succ idles =>
                  simp only [schedStep, hw, hi, Option.some.injEq] at hstep
                  subst hstep
                  have hjN : reqs.length ≤ j := by
                    by_contra hlt
                    push_neg at hlt
                    rw [hw, drop_initQueue_lt reqs k j hlt] at hwork
                    simp at hwork
                  have hjlt : j < reqs.length + k := by
                    by_contra hge
                    push_neg at hge
                    have hnil : (initQueue reqs k).drop j = [] :=
                      List.drop_eq_nil_of_le
                        (by rw [initQueue_length]; omega)
                    rw [hw, hnil] at hwork
                    simp at hwork
                  rw [hw, drop_initQueue_sentinel reqs k j hjN hjlt]
                    at hwork
                  injection hwork with h1 h2
                  refine ⟨j + 1, by omega, ?_, ?_, ?_, ?_⟩
                  · exact h2
                  · show st.doneCount + 1 = (j + 1) - reqs.length
                    rw [hdone]; omega
                  · show idles + st.busy.length + (st.doneCount + 1) = k
                    rw [hi] at hcount
                    omega
                  · show (st.results ++ st.busy).Perm
                      ((taggedResults pts reqs).take (j + 1))
                    have t1 : (taggedResults pts reqs).take j
                        = taggedResults pts reqs :=
                      List.take_of_length_le
                        (by rw [taggedResults_length]; omega)
                    have t2 : (taggedResults pts reqs).take (j + 1)
                        = taggedResults pts reqs :=
                      List.take_of_length_le
                        (by rw [taggedResults_length]; omega)
                    rw [t2]
                    rw [t1] at hperm
                    exact hperm
  | push i =>
      cases hb : st.busy[i]? with
      | none => simp [schedStep, hb] at hstep
      | some r =>
          simp only [schedStep, hb, Option.some.injEq] at hstep
          subst hstep
          have hilt : i < st.busy.length := by
            by_contra hge
            push_neg at hge
            rw [List.getElem?_eq_none hge] at hb
            simp at hb
          refine ⟨j, hjle, hwork, hdone, ?_, ?_⟩
          · show (st.idleCount + 1) + (st.busy.eraseIdx i).length
                + st.doneCount = k
            rw [List.length_eraseIdx]
            simp only [hilt, if_true]
            omega
          · show ((st.results ++ [r]) ++ st.busy.eraseIdx i).Perm
              ((taggedResults pts reqs).take j)
            have hb2 : st.busy.Perm (r :: st.busy.eraseIdx i) :=
              cons_eraseIdx_perm st.busy i r hb
            have hassoc : (st.results ++ [r]) ++ st.busy.eraseIdx i
                = st.results ++ (r :: st.busy.eraseIdx i) := by
              simp
            rw [hassoc]
            exact (List.Perm.append_left st.results hb2.symm).trans hperm

theorem schedRun_inv (pts : List Obs) (reqs : List AggReq) (k : Nat) :
    ∀ (choices : List SchedChoice) (st st2 : SchedState),
      schedRun pts st choices = some st2 →
      SchedInv pts reqs k st → SchedInv pts reqs k st2 := by
  intro choices
  induction choices with
  | nil =>
      intro st st2 h hinv
      have : st = st2 := Option.some.inj h
      exact this ▸ hinv
  | cons c cs ih =>
      intro st st2 h hinv
      unfold schedRun at h
      cases hstep : schedStep pts st c with
      | none => rw [hstep] at h; simp at h
      | some stm =>
          rw [hstep] at h
          exact ih stm st2 h
            (schedStep_inv pts reqs k st stm c hstep hinv)

theorem schedInit_inv (pts : List Obs) (reqs : List AggReq) (k : Nat) :
    SchedInv pts reqs k (schedInit reqs k) := by
  refine ⟨0, by omega, ?_, ?_, ?_, ?_⟩
  · simp [schedInit]
  · simp [schedInit]
  · simp [schedInit]
  · simp [schedInit]
/-- C8: for every batch of N polygon aggregation requests dispatched
through the scheduler (workers consuming the sentinel-terminated work
queue), every completed run — under every interleaving of pulls and
out-of-order result completions — produces exactly N results on the
result channel, each tagged with a distinct originating feature index
from 0..N-1 and carrying that feature's computed result, so the caller
can write every result to the correct output feature regardless of
completion order. -/
theorem scheduler_results_complete (pts : List Obs) (reqs : List AggReq)
    (k : Nat) (choices : List SchedChoice) (st2 : SchedState)
    (hk : 1 ≤ k)
    (hrun : schedRun pts (schedInit reqs k) choices = some st2)
    (hterm : st2.doneCount = k) :
    st2.results.length = reqs.length ∧
      st2.results.Perm (taggedResults pts reqs) ∧
      (st2.results.map Prod.fst).Perm (List.range reqs.length) := by
  obtain ⟨j, hjle, hwork, hdone, hcount, hperm⟩ :=
    schedRun_inv pts reqs k choices (schedInit reqs k) st2 hrun
      (schedInit_inv pts reqs k)
  have hbusynil : st2.busy = [] := by
    have hlen0 : st2.busy.length = 0 := by omega
    exact List.length_eq_zero.mp hlen0
  have htake : (taggedResults pts reqs).take j = taggedResults pts reqs :=
    List.take_of_length_le (by rw [taggedResults_length]; omega)
  rw [hbusynil, List.append_nil, htake] at hperm
  refine ⟨?_, hperm, ?_⟩
  · rw [hperm.length_eq, taggedResults_length]
  · have hmap := hperm.map Prod.fst
    rw [taggedResults, List.map_map] at hmap
    have hcomp : (Prod.fst ∘ fun p : Nat × AggReq =>
        (p.1, compute pts p.2)) = Prod.fst := rfl
    rw [hcomp, List.enum_map_fst] at hmap
    exact hmap

/-- The request used by the scheduler witness run. -/
def schedWitnessReq : AggReq :=
  ⟨[(0, 0), (10, 0), (10, 10), (0, 10)], ⟨2005, 1, 1⟩, ⟨2014, 12, 31⟩⟩

/-- The final state of the scheduler witness run (one worker, one
request, schedule pull / push / pull). -/
def schedWitnessFinal : SchedState :=
  ⟨[], 0, [], 1, [(0, compute [] schedWitnessReq)]⟩

/-- C8 witness: a one-worker, one-request batch run to completion under
the schedule pull, push, pull yields exactly one result, tagged with
feature index 0 and carrying the computed result. -/
theorem scheduler_results_complete_witness :
    1 ≤ 1 ∧
      schedRun [] (schedInit [schedWitnessReq] 1)
          [SchedChoice.pull, SchedChoice.push 0, SchedChoice.pull]
        = some schedWitnessFinal ∧
      schedWitnessFinal.doneCount = 1 ∧
      (schedWitnessFinal.results.length = 1 ∧
        schedWitnessFinal.results.Perm
          (taggedResults [] [schedWitnessReq]) ∧
        (schedWitnessFinal.results.map Prod.fst).Perm (List.range 1)) := by
  have hrun : schedRun [] (schedInit [schedWitnessReq] 1)
      [SchedChoice.pull, SchedChoice.push 0, SchedChoice.pull]
      = some schedWitnessFinal := rfl
  refine ⟨Nat.le_refl 1, hrun, rfl, ?_⟩
  exact scheduler_results_complete [] [schedWitnessReq] 1
    [SchedChoice.pull, SchedChoice.push 0, SchedChoice.pull]
    schedWitnessFinal (Nat.le_refl 1) hrun rfl
/-! ## Remote Aggregation Service (spec section 4.5)

Modelled from the spec: `recmodel_server`'s Pyro-exposed service is
absent from the source tree.  Each accepted `compute_pud_for_aoi` request
produces a uniquely identified workspace retaining the client's submitted
AOI archive until cleanup, and `fetch_workspace(workspace_id)` returns
that archive; the wire payloads are opaque byte strings, modelled as
lists of bytes. -/

structure RecService where
  nextId : Nat
  workspaces : List (Nat × List Nat)

/-- Modelled from the spec: `compute_pud_for_aoi(serialized_polygons,
date_range)` — accept the archived AOI payload, retain it under a fresh
workspace id for later retrieval, and return that id with the updated
service state (the aggregation result itself is covered by the
scheduler and aggregator models above). -/
def computePudForAoi (st : RecService) (aoiArchive : List Nat) :
    Nat × RecService :=
  (st.nextId, ⟨st.nextId + 1, (st.nextId, aoiArchive) :: st.workspaces⟩)

/-- Modelled from the spec: `fetch_workspace(workspace_id)` — return the
archive retained for that workspace, if any. -/
def fetchWorkspace (st : RecService) (wid : Nat) : Option (List Nat) :=
  match st.workspaces.find? (fun e => e.1 == wid) with
  | some e => some e.2
  | none => none

/-- C9: for every service state and every accepted aggregation request,
the workspace payload round-trips exactly — `fetch_workspace` applied to
the workspace id returned by `compute_pud_for_aoi` yields an archive
byte-for-byte equal to the AOI archive the client submitted. -/
theorem workspace_round_trip (st : RecService) (aoiArchive : List Nat) :
    fetchWorkspace (computePudForAoi st aoiArchive).2
        (computePudForAoi st aoiArchive).1
      = some aoiArchive := by
  unfold computePudForAoi fetchWorkspace
  simp [List.find?]

/-! ## Server model construction (spec sections 4.5 and 7, and
`TestRecServer.test_year_order`)

Modelled from the spec: `recmodel_server.RecModel` is absent from the
source tree.  Its test pins down that constructing the model with
`min_year > max_year` raises `ValueError` at construction time, before
the quadtree index is built — an input-error rejected synchronously per
the spec's error taxonomy. -/

structure RecModel where
  minYear : Nat
  maxYear : Nat
  qt : Quadtree

/-- Modelled from the spec and `test_year_order`: construct the server
model over a raw point dataset — validate the year range first, then
build the quadtree index. -/
def RecModel.create (minYear maxYear cap fuel : Nat) (bbox : Rect)
    (pts : List Point) : Except String RecModel :=
  if maxYear < minYear then
    Except.error "start year must be less than end year"
  else
    Except.ok ⟨minYear, maxYear, build cap fuel bbox pts⟩

/-- C10: for every pair of years with `min_year > max_year`, constructing
the server model fails with the year-order `ValueError` — for every point
dataset, bounding box and capacity, so the rejection happens before any
index is built or any aggregation is served. -/
theorem recmodel_year_order (minYear maxYear cap fuel : Nat) (bbox : Rect)
    (pts : List Point) (h : maxYear < minYear) :
    RecModel.create minYear maxYear cap fuel bbox pts
      = Except.error "start year must be less than end year" := by
  unfold RecModel.create
  rw [if_pos h]

/-- C10 witness: constructing the model with years `(2014, 2005)` — as in
the repository's `test_year_order` — fails on a nonempty dataset. -/
theorem recmodel_year_order_witness :
    2005 < 2014 ∧
      RecModel.create 2014 2005 2 20 (Rect.mk 0 0 100 100)
          [Point.mk 0 5 5]
        = Except.error "start year must be less than end year" :=
  ⟨by decide,
    recmodel_year_order 2014 2005 2 20 (Rect.mk 0 0 100 100)
      [Point.mk 0 5 5] (by decide)⟩

end Spec2Proof
